import Mathlib

/-!
Verification of the PDF-spiral homework repository.

Part 1: shallow embedding of `src/app/services/spiralGenerator.js`.
Lines of text are modelled as lists of characters; the JavaScript string
operations used by the generator (length, padStart, padEnd, split, join,
trim, repeat) are reproduced on that representation.
-/

namespace Spiral

/-- A line of text, modelled as a list of characters
(JS string indices are code units; all characters involved are ASCII). -/
abbrev Line := List Char

/-- Embedding of SpiralGenerator.insertChars: char.repeat(Math.max(0, n)). -/
def insertChars (c : Char) (n : Nat) : Line := List.replicate n c

/-- Embedding of row.join(' ') on a list of row elements. -/
def joinSpace : List Line → Line
  | [] => []
  | [l] => l
  | l :: ls => l ++ ' ' :: joinSpace ls

/-- Embedding of Math.max(...lines.map(line => line.length)). -/
def maxLen (lines : List Line) : Nat := lines.foldr (fun l m => max l.length m) 0

/-- Embedding of line.padEnd(n, ' '). -/
def padEndTo (l : Line) (n : Nat) : Line := l ++ insertChars ' ' (n - l.length)

/-- Embedding of line.padStart(n, ' '). -/
def padStartTo (l : Line) (n : Nat) : Line := insertChars ' ' (n - l.length) ++ l

/-- The two direction arguments accepted by SpiralGenerator.align. -/
inductive AlignDir | left | right
deriving DecidableEq, Repr

/-- Embedding of SpiralGenerator.align: pad every line to the block's
maximum length, at the end (left) or at the start (right). -/
def align (lines : List Line) (d : AlignDir) : List Line :=
  let m := maxLen lines
  lines.map (fun l => match d with
    | .left => padEndTo l m
    | .right => padStartTo l m)

/-- Embedding of line.split('|')[0]: the segment before the first bar
(the whole line when it has no bar). -/
def beforeBar (l : Line) : Line := l.takeWhile (fun c => c != '|')

/-- Embedding of line.split('|').pop(): the segment after the last bar
(the whole line when it has no bar). -/
def afterLastBar (l : Line) : Line := (l.reverse.takeWhile (fun c => c != '|')).reverse

/-- Embedding of the TOP-phase row-building loop (spiralGenerator.js lines
55-58): while ((row.join(' ').length < target || row.length < 2) and words
remain) push the next word at the end of the row. Returns the finished row
and the remaining words. -/
def topRowLoop (target : Nat) (row : List Line) : List Line → List Line × List Line
  | [] => (row, [])
  | w :: ws =>
    if (joinSpace row).length < target ∨ row.length < 2 then
      topRowLoop target (row ++ [w]) ws
    else (row, w :: ws)

/-- Embedding of the BOTTOM-phase row-building loop (spiralGenerator.js
lines 85-87): same stopping rule, but each word is unshifted at the front
of the row. -/
def bottomRowLoop (target : Nat) (row : List Line) : List Line → List Line × List Line
  | [] => (row, [])
  | w :: ws =>
    if (joinSpace row).length < target ∨ row.length < 2 then
      bottomRowLoop target (w :: row) ws
    else (row, w :: ws)

/-- Embedding of case 0 (labelled TOP in the source): add a separator and a
new row after the last line, then left-align. -/
def phaseTop (result : List Line) (ws : List Line) : List Line × List Line :=
  let target := (result.headD []).length
  let gap := (beforeBar (result.getLastD [])).length + 1
  let r1 := align result .right
  let rw := topRowLoop target [insertChars ' ' gap] ws
  let sep := insertChars ' ' gap ++ insertChars '-' ((joinSpace rw.1).length + 3 - gap)
  (align (r1 ++ [sep, joinSpace rw.1]) .left, rw.2)

/-- Embedding of case 2 (labelled BOTTOM in the source): unshift a separator
and a new row before the first line, then right-align. -/
def phaseBottom (result : List Line) (ws : List Line) : List Line × List Line :=
  let target := (result.getLastD []).length
  let gap := (afterLastBar (result.headD [])).length + 1
  let rw := bottomRowLoop target [insertChars ' ' gap] ws
  let sep := insertChars '-' ((joinSpace rw.1).length + 3 - gap) ++ insertChars ' ' gap
  (align (joinSpace rw.1 :: sep :: result) .right, rw.2)

/-- Replace line idx of the block by itself extended with a suffix
(embedding of result[idx] += s). -/
def setAppend (lines : List Line) (idx : Nat) (s : Line) : List Line :=
  lines.set idx (lines.getD idx [] ++ s)

/-- Replace line idx of the block by itself extended with a new front part
(embedding of result[idx] = s + result[idx]). -/
def setPrepend (lines : List Line) (idx : Nat) (s : Line) : List Line :=
  lines.set idx (s ++ lines.getD idx [])

/-- Embedding of the case 1 (RIGHT) for-loop, spiralGenerator.js lines
70-74: for i from 2 to result.length - 1, append a bar and the next word to
line result.length - 1 - i, stopping when the words run out. -/
def rightLoop (result : List Line) (i : Nat) (ws : List Line) : List Line × List Line :=
  if result.length ≤ i then (result, ws)
  else match ws with
    | [] => (result, [])
    | w :: ws' =>
      rightLoop (setAppend result (result.length - 1 - i) ('|' :: ' ' :: w)) (i + 1) ws'
termination_by result.length - i
decreasing_by simp [setAppend]; omega

/-- Embedding of the case 3 (LEFT) for-loop, spiralGenerator.js lines
99-102: for i from 2 to result.length - 1, put the next word and a bar in
front of line i, stopping when the words run out. -/
def leftLoop (result : List Line) (i : Nat) (ws : List Line) : List Line × List Line :=
  if result.length ≤ i then (result, ws)
  else match ws with
    | [] => (result, [])
    | w :: ws' =>
      leftLoop (setPrepend result i (w ++ [' ', '|'])) (i + 1) ws'
termination_by result.length - i
decreasing_by simp [setPrepend]; omega

/-- Embedding of case 1 (RIGHT): run the for-loop from i = 2, then
left-align. -/
def phaseRight (result : List Line) (ws : List Line) : List Line × List Line :=
  let rw := rightLoop result 2 ws
  (align rw.1 .left, rw.2)

/-- Embedding of case 3 (LEFT): run the for-loop from i = 2, then
right-align. -/
def phaseLeft (result : List Line) (ws : List Line) : List Line × List Line :=
  let rw := leftLoop result 2 ws
  (align rw.1 .right, rw.2)

/-- One arm of the switch statement on the direction counter; a value
outside 0-3 matches no case and leaves the state unchanged. -/
def phaseStep : Nat → List Line → List Line → List Line × List Line
  | 0, r, ws => phaseTop r ws
  | 1, r, ws => phaseRight r ws
  | 2, r, ws => phaseBottom r ws
  | 3, r, ws => phaseLeft r ws
  | _ + 4, r, ws => (r, ws)

/-- The while-loop of SpiralGenerator.spiral (lines 46-109): run the phase
named by the direction counter, then advance the counter mod 4, until the
word list is empty. The loop always consumes at least one word per
iteration from the states the entry point reaches (proved below), so a fuel
of ws.length is enough; the fuel-exhausted arm is never taken from those
states. -/
def spiralGo : Nat → List Line → Nat → List Line → List Line × List Line
  | _, result, _, [] => (result, [])
  | 0, result, _, ws => (result, ws)
  | fuel + 1, result, d, w :: ws =>
    let p := phaseStep d result (w :: ws)
    spiralGo fuel p.1 ((d + 1) % 4) p.2

/-- The marker line created at spiralGenerator.js line 37 from the first
word. -/
def marker (w : Line) : Line := '>' :: '>' :: '>' :: ' ' :: '|' :: ' ' :: w

/-- The first trailing ornament line's tail (spiralGenerator.js line 113). -/
def snail1 : Line := [' ', ' ', ' ', ' ', ' ', '\\', '/']

/-- The second trailing ornament line's tail (spiralGenerator.js line 114). -/
def snail2 : Line := ['_', '_', '_', '_', '_', '(', 'o', 'o', ')']

/-- The block of lines built by SpiralGenerator.spiral before the two
ornament lines are pushed: the right-aligned marker line, then the
direction-cycling loop starting at direction 2. spiral is only invoked
with a non-empty word list (generateSpiral guards); the empty arm is
arbitrary. -/
def spiralBlock : List Line → List Line
  | [] => []
  | w :: ws => (spiralGo ws.length (align [marker w] .right) 2 ws).1

/-- The full list of output lines of SpiralGenerator.spiral: the block plus
the two ornament lines pushed at lines 112-114 of the source. -/
def spiralLines (words : List Line) : List Line :=
  let result := spiralBlock words
  let sep := insertChars ' ' ((result.headD []).length + 3)
  result ++ [sep ++ snail1, sep ++ snail2]

/-- Embedding of SpiralGenerator.spiral: the output lines joined with
newlines. -/
def spiral (words : List Line) : Line := List.intercalate ['\n'] (spiralLines words)

/-- Embedding of word.trim(). -/
def trimLine (l : Line) : Line :=
  ((l.dropWhile Char.isWhitespace).reverse.dropWhile Char.isWhitespace).reverse

/-- Embedding of the word extraction in generateSpiral (lines 18-20):
split on commas, trim each piece, drop the empty ones. -/
def splitWords (s : Line) : List Line :=
  ((s.splitOn ',').map trimLine).filter (fun w => w.length > 0)

/-- Embedding of SpiralGenerator.generateSpiral. none models a null,
undefined or non-string argument; the empty string is falsy in JS, so the
first guard also returns the empty string for it. -/
def generateSpiral : Option Line → Line
  | none => []
  | some s =>
    if s = [] then []
    else
      let words := splitWords s
      if words = [] then [] else spiral words

/-- The word list an arbitrary argument of generateSpiral yields: none
models a null, undefined or non-string argument, which yields no words. -/
def wordsOfInput : Option Line → List Line
  | none => []
  | some s => splitWords s

/-- A block is rectangular when all its lines have one common length. -/
def IsRect (lines : List Line) : Prop := ∃ n, ∀ l ∈ lines, l.length = n

/-! Instrumentation of the while-loop for the phase-order claims: the value
of the direction counter at each executed iteration. It mirrors spiralGo
exactly and only adds the ghost output. -/

/-- The directions used by the successive iterations of the while-loop,
starting from a given state. -/
def spiralGoDirs : Nat → List Line → Nat → List Line → List Nat
  | _, _, _, [] => []
  | 0, _, _, _ => []
  | fuel + 1, result, d, w :: ws =>
    let p := phaseStep d result (w :: ws)
    d :: spiralGoDirs fuel p.1 ((d + 1) % 4) p.2

/-- The directions of the phases executed by SpiralGenerator.spiral on a
word list: the loop is entered with direction 2 right after the marker line
is created (spiralGenerator.js line 40). -/
def spiralDirs : List Line → List Nat
  | [] => []
  | w :: ws => spiralGoDirs ws.length (align [marker w] .right) 2 ws

/-- The direction cycle: n successive counter values starting at d, each
followed by its successor mod 4 (0 TOP, 1 RIGHT, 2 BOTTOM, 3 LEFT). -/
def dirSeq : Nat → Nat → List Nat
  | _, 0 => []
  | d, n + 1 => d :: dirSeq ((d + 1) % 4) n

/-! Instrumentation of the while-loop for the word-conservation claim: the
words consumed by each executed iteration, in consumption order. It mirrors
spiralGo exactly and only adds the ghost output. -/

/-- The words consumed by the successive iterations of the while-loop,
starting from a given state: each iteration contributes the front segment of
the word list that its phase removed. -/
def spiralGoConsumed : Nat → List Line → Nat → List Line → List Line
  | _, _, _, [] => []
  | 0, _, _, _ => []
  | fuel + 1, result, d, w :: ws =>
    let p := phaseStep d result (w :: ws)
    (w :: ws).take ((w :: ws).length - p.2.length) ++
      spiralGoConsumed fuel p.1 ((d + 1) % 4) p.2

/-- The words consumed by the growth loop of SpiralGenerator.spiral, in
consumption order (the first word is consumed earlier, by the marker
line). -/
def spiralConsumed : List Line → List Line
  | [] => []
  | w :: ws => spiralGoConsumed ws.length (align [marker w] .right) 2 ws

/-- w occurs as one contiguous segment of the line l. -/
def SubSeg (w l : Line) : Prop := ∃ u v, l = u ++ w ++ v

/-- Invariant of the while-loop states reached from spiral's entry point:
the direction counter stays below 4, the block is never empty, and as soon
as the direction is not one of the row-adding phases (0 or 2) the block has
at least three lines, so the column phases always have a line to extend. -/
def LoopInv (r : List Line) (d : Nat) : Prop :=
  d < 4 ∧ 1 ≤ r.length ∧ (3 ≤ r.length ∨ d = 0 ∨ d = 2)

end Spiral

/-!
Part 2: shallow embedding of the job model and the queue processor
(src/app/models/PDFJob.js and src/app/services/index.js). The JobStore is
modelled as the list of persisted job records; the mongoose operations the
queue processor performs become pure functions on that list, and the
outcomes of the await points inside one tick (query result, save results,
the worker promise) are oracle parameters of the tick function.
-/

namespace Sched

/-- The status enum of pdfJobSchema (PDFJob.js line 13). -/
inductive JobStatus | pending | processing | completed | failed
deriving DecidableEq, Repr

/-- A job record (PDFJob.js lines 3-30): jobId, status, content, filePath
and errorMessage (both defaulting to null), and the createdAt timestamp
added by the schema's timestamps option. -/
structure Job where
  jobId : String
  status : JobStatus
  content : String
  filePath : Option String
  errorMessage : Option String
  createdAt : Nat
deriving DecidableEq, Repr

/-- JS truthiness of a string-or-null value: null and the empty string are
falsy, every other string is truthy. -/
def jsTruthy : Option String → Bool
  | none => false
  | some s => !(s == "")

/-- Embedding of PDFJob.updateStatus (PDFJob.js lines 41-46): set the
status, and overwrite filePath / errorMessage only when the corresponding
argument is truthy. -/
def updateStatus (j : Job) (newStatus : JobStatus) (filePath errorMessage : Option String) :
    Job :=
  { j with
    status := newStatus
    filePath := if jsTruthy filePath then filePath else j.filePath
    errorMessage := if jsTruthy errorMessage then errorMessage else j.errorMessage }

/-- A job as created by the submission route (routes/pdf.js lines 26-33):
pending status, schema defaults null for filePath and errorMessage. -/
def newJob (id content : String) (t : Nat) : Job :=
  { jobId := id, status := .pending, content := content,
    filePath := none, errorMessage := none, createdAt := t }

/-- The JobStore: the list of persisted job records. -/
abbrev Store := List Job

/-- The argmin step of a createdAt-ascending sort: keep the earlier record,
the incumbent on ties. -/
def pickOlder (a b : Job) : Job := if b.createdAt < a.createdAt then b else a

/-- Embedding of PDFJob.findOne({status:'pending'}).sort({createdAt:1})
(index.js lines 67-68): a pending record with the least createdAt, or none
when no record is pending. -/
def oldestPending (store : Store) : Option Job :=
  match store.filter (fun j => j.status == .pending) with
  | [] => none
  | j :: js => some (js.foldl pickOlder j)

/-- Embedding of the mongoose document save(): the in-memory document's
full state overwrites the persisted record with the same jobId. The
updateStatus method mutates the in-memory document before saving, so the
document accumulates field changes across calls even when an intermediate
save throws. -/
def saveDoc (store : Store) (doc : Job) : Store :=
  store.map (fun x => if x.jobId = doc.jobId then doc else x)

/-- The error message the queue processor records on a render failure
(index.js line 91). -/
def renderErrMsg (m : String) : String := "PDF generation failed: " ++ m

/-- The JobStore operations one tick attempts, as observable effects: the
pending query and each updateStatus call with its receiver and the new
status. -/
inductive TickOp
  | query
  | mark (j : Job) (st : JobStatus)
deriving DecidableEq, Repr

/-- The outcomes of the await points inside one tick: none means the
operation returns normally, some e that it throws e. renderRes is the
worker promise's outcome: a resolved filename or a rejection message. -/
structure TickEnv where
  findErr : Option String
  markProcErr : Option String
  renderRes : Except String String
  markCompErr : Option String
  markFailErr : Option String
deriving Repr

/-- A tick environment in which every JobStore operation succeeds (the
render may still fail). -/
abbrev StoreOk (env : TickEnv) : Prop :=
  env.findErr = none ∧ env.markProcErr = none ∧
  env.markCompErr = none ∧ env.markFailErr = none

/-- The try-block body of QueueProcessor.processNextJob (index.js lines
63-96): find the oldest pending job, mark it processing, render in the
worker, then mark completed; the inner catch turns a render rejection or a
failed completed-save into a failed-mark; a throw not caught there aborts
the body. The found document is mutated in memory by every updateStatus
call and each save persists the whole document, so when the completed-save
throws, the filePath it set in memory is carried into the failed-mark's
save. Returns the store after the saves that succeeded, the attempted
operations in order, and the body's outcome. -/
def tickBody (store : Store) (env : TickEnv) : Store × List TickOp × Except String Unit :=
  match env.findErr with
  | some e => (store, [.query], .error e)
  | none =>
    match oldestPending store with
    | none => (store, [.query], .ok ())
    | some j =>
      match env.markProcErr with
      | some e => (store, [.query, .mark j .processing], .error e)
      | none =>
        let doc1 := updateStatus j .processing none none
        let s1 := saveDoc store doc1
        match env.renderRes with
        | .ok fn =>
          let doc2 := updateStatus doc1 .completed (some fn) none
          match env.markCompErr with
          | none =>
            (saveDoc s1 doc2,
              [.query, .mark j .processing, .mark j .completed], .ok ())
          | some e =>
            let doc3 := updateStatus doc2 .failed none (some (renderErrMsg e))
            match env.markFailErr with
            | none =>
              (saveDoc s1 doc3,
                [.query, .mark j .processing, .mark j .completed, .mark j .failed],
                .ok ())
            | some e2 =>
              (s1, [.query, .mark j .processing, .mark j .completed, .mark j .failed],
                .error e2)
        | .error m =>
          let doc2 := updateStatus doc1 .failed none (some (renderErrMsg m))
          match env.markFailErr with
          | none =>
            (saveDoc s1 doc2,
              [.query, .mark j .processing, .mark j .failed], .ok ())
          | some e2 =>
            (s1, [.query, .mark j .processing, .mark j .failed], .error e2)

/-- Embedding of QueueProcessor.processNextJob (index.js lines 57-102): the
guard on the in-flight flag returns immediately while a render is in
flight; otherwise the body runs inside try/catch (the catch only logs) and
the finally resets the flag. Components: flag after the tick, store,
attempted operations, and the tick's outward outcome, which is ok unless an
exception escapes the method. -/
def processNextJob (isProcessing : Bool) (store : Store) (env : TickEnv) :
    Bool × Store × List TickOp × Except String Unit :=
  if isProcessing then (isProcessing, store, [], .ok ())
  else
    let b := tickBody store env
    (false, b.1, b.2.1,
      match b.2.2 with
      | .ok _ => .ok ()
      | .error _ => .ok ())

/-- A run of successive timer ticks, each fed one environment: threads the
flag and the store, and collects the attempted operations. -/
def runTicks : List TickEnv → Bool → Store → Bool × Store × List TickOp
  | [], flag, store => (flag, store, [])
  | env :: rest, flag, store =>
    let t := processNextJob flag store env
    let r := runTicks rest t.1 t.2.1
    (r.1, r.2.1, t.2.2.1 ++ r.2.2)

/-- The createdAt stamps of the jobs a trace marked processing, in order:
the jobs the scheduler started. -/
def startedTimes (ops : List TickOp) : List Nat :=
  ops.filterMap (fun op =>
    match op with
    | .mark j .processing => some j.createdAt
    | _ => none)

/-- Embedding of QueueProcessor.resumeProcessingJobs (index.js lines
107-126): find all processing records and, when there are any, reset them
to pending in one updateMany. -/
def resumeProcessingJobs (store : Store) : Store :=
  if 0 < (store.filter (fun j => j.status == .processing)).length then
    store.map (fun j => if j.status = .processing then { j with status := .pending } else j)
  else store

/-- The persisted job states reachable through the system's lifecycle:
creation by the submission route, the queue processor's updateStatus calls
(index.js lines 78, 85, 92) on the records it selects, and the startup
recovery reset. toFailedAfterCompMark is the path on which the
completed-save throws after a successful render: updateStatus had already
set filePath on the in-memory document (PDFJob.js line 43), the inner catch
then marks it failed with a null filePath argument, and that save persists
the whole document — a failed record carrying the filename. -/
inductive JobReach : Job → Prop
  | created (id content : String) (t : Nat) : JobReach (newJob id content t)
  | toProcessing {j : Job} : JobReach j → j.status = .pending →
      JobReach (updateStatus j .processing none none)
  | toCompleted {j : Job} (fn : String) : JobReach j → j.status = .processing →
      JobReach (updateStatus j .completed (some fn) none)
  | toFailed {j : Job} (m : String) : JobReach j → j.status = .processing →
      JobReach (updateStatus j .failed none (some (renderErrMsg m)))
  | toFailedAfterCompMark {j : Job} (fn m : String) : JobReach j → j.status = .processing →
      JobReach (updateStatus (updateStatus j .completed (some fn) none)
        .failed none (some (renderErrMsg m)))
  | recovered {j : Job} : JobReach j → j.status = .processing →
      JobReach { j with status := .pending }

/-- The record the completed-save-failure path persists for a concrete job:
processing, then a completed mark whose save throws, then the failed mark
whose save carries the in-memory filename. -/
def carriedFailedJob : Job :=
  updateStatus
    (updateStatus (updateStatus (newJob "job-a" "alpha, beta" 0) .processing none none)
      .completed (some "pdf_job-a.pdf") none)
    .failed none (some (renderErrMsg "disk full"))

/-- A tick environment whose completed-save throws while everything else
succeeds: it drives a tick into the completed-save-failure path. -/
def carryEnv : TickEnv :=
  { findErr := none, markProcErr := none, renderRes := .ok "pdf_job-a.pdf",
    markCompErr := some "disk full", markFailErr := none }

/-- Concrete two-job store used by the witnesses. -/
def sampleStore : Store :=
  [{ jobId := "job-a", status := .pending, content := "alpha, beta", filePath := none,
     errorMessage := none, createdAt := 5 },
   { jobId := "job-b", status := .pending, content := "gamma", filePath := none,
     errorMessage := none, createdAt := 3 }]

/-- Concrete tick environments used by the witnesses: all store operations
succeed; the second render fails. -/
def sampleEnvs : List TickEnv :=
  [{ findErr := none, markProcErr := none, renderRes := .ok "pdf_job-b.pdf",
     markCompErr := none, markFailErr := none },
   { findErr := none, markProcErr := none, renderRes := .error "boom",
     markCompErr := none, markFailErr := none },
   { findErr := none, markProcErr := none, renderRes := .ok "pdf_x.pdf",
     markCompErr := none, markFailErr := none }]

end Sched

namespace Spiral

/-! Basic lemmas about the helpers. -/

theorem length_insertChars (c : Char) (n : Nat) : (insertChars c n).length = n := by
  simp [insertChars]

theorem maxLen_cons (a : Line) (t : List Line) :
    maxLen (a :: t) = max a.length (maxLen t) := rfl

theorem maxLen_ge {l : Line} {lines : List Line} (h : l ∈ lines) :
    l.length ≤ maxLen lines := by
  induction lines with
  | nil => cases h
  | cons a t ih =>
    rw [maxLen_cons]
    cases h with
    | head => exact Nat.le_max_left _ _
    | tail _ h' => exact le_trans (ih h') (Nat.le_max_right _ _)

theorem length_padStartTo (l : Line) (n : Nat) (h : l.length ≤ n) :
    (padStartTo l n).length = n := by
  simp [padStartTo, insertChars]; omega

theorem length_padEndTo (l : Line) (n : Nat) (h : l.length ≤ n) :
    (padEndTo l n).length = n := by
  simp [padEndTo, insertChars]; omega

theorem length_align (lines : List Line) (d : AlignDir) :
    (align lines d).length = lines.length := by
  cases d <;> simp [align]

theorem mem_align_length {l : Line} {lines : List Line} {d : AlignDir}
    (h : l ∈ align lines d) : l.length = maxLen lines := by
  cases d with
  | left =>
    simp [align] at h
    obtain ⟨a, ha, rfl⟩ := h
    exact length_padEndTo _ _ (maxLen_ge ha)
  | right =>
    simp [align] at h
    obtain ⟨a, ha, rfl⟩ := h
    exact length_padStartTo _ _ (maxLen_ge ha)

theorem align_single (l : Line) (d : AlignDir) : align [l] d = [l] := by
  cases d <;> simp [align, maxLen, padStartTo, padEndTo, insertChars]

theorem isRect_align (lines : List Line) (d : AlignDir) : IsRect (align lines d) :=
  ⟨maxLen lines, fun _ h => mem_align_length h⟩

theorem length_setAppend (r : List Line) (idx : Nat) (s : Line) :
    (setAppend r idx s).length = r.length := by simp [setAppend]

theorem length_setPrepend (r : List Line) (idx : Nat) (s : Line) :
    (setPrepend r idx s).length = r.length := by simp [setPrepend]

theorem length_rightLoop (ws : List Line) (r : List Line) (i : Nat) :
    (rightLoop r i ws).1.length = r.length := by
  induction ws generalizing r i with
  | nil => rw [rightLoop]; split <;> rfl
  | cons w ws' ih =>
    rw [rightLoop]
    split
    · rfl
    · simpa [length_setAppend] using ih (setAppend r (r.length - 1 - i) ('|' :: ' ' :: w)) (i + 1)

theorem length_leftLoop (ws : List Line) (r : List Line) (i : Nat) :
    (leftLoop r i ws).1.length = r.length := by
  induction ws generalizing r i with
  | nil => rw [leftLoop]; split <;> rfl
  | cons w ws' ih =>
    rw [leftLoop]
    split
    · rfl
    · simpa [length_setPrepend] using ih (setPrepend r i (w ++ [' ', '|'])) (i + 1)

theorem isRect_phaseStep (d : Nat) (r ws : List Line) (h : IsRect r) :
    IsRect (phaseStep d r ws).1 := by
  match d with
  | 0 => simp only [phaseStep, phaseTop]; exact isRect_align _ _
  | 1 => simp only [phaseStep, phaseRight]; exact isRect_align _ _
  | 2 => simp only [phaseStep, phaseBottom]; exact isRect_align _ _
  | 3 => simp only [phaseStep, phaseLeft]; exact isRect_align _ _
  | _ + 4 => exact h

theorem length_phaseStep_ge (d : Nat) (r ws : List Line) :
    r.length ≤ (phaseStep d r ws).1.length := by
  match d with
  | 0 =>
    show r.length ≤ (align _ .left).length
    simp [length_align]
  | 1 =>
    show r.length ≤ (align _ .left).length
    simp [length_align, length_rightLoop]
  | 2 =>
    show r.length ≤ (align _ .right).length
    simp [length_align]
    omega
  | 3 =>
    show r.length ≤ (align _ .right).length
    simp [length_align, length_leftLoop]
  | _ + 4 => exact le_refl _

theorem isRect_spiralGo (fuel : Nat) (r : List Line) (d : Nat) (ws : List Line)
    (h : IsRect r) : IsRect (spiralGo fuel r d ws).1 := by
  induction fuel generalizing r d ws with
  | zero => cases ws <;> simpa [spiralGo]
  | succ fuel ih =>
    cases ws with
    | nil => simpa [spiralGo]
    | cons w ws' =>
      rw [spiralGo]
      exact ih _ _ _ (isRect_phaseStep d r (w :: ws') h)

theorem length_spiralGo_ge (fuel : Nat) (r : List Line) (d : Nat) (ws : List Line) :
    r.length ≤ (spiralGo fuel r d ws).1.length := by
  induction fuel generalizing r d ws with
  | zero => cases ws <;> simp [spiralGo]
  | succ fuel ih =>
    cases ws with
    | nil => simp [spiralGo]
    | cons w ws' =>
      rw [spiralGo]
      exact le_trans (length_phaseStep_ge d r (w :: ws')) (ih _ _ _)

theorem spiralBlock_ne_nil (w : Line) (ws : List Line) : spiralBlock (w :: ws) ≠ [] := by
  have h := length_spiralGo_ge ws.length (align [marker w] .right) 2 ws
  rw [length_align] at h
  simp only [List.length_singleton] at h
  intro hnil
  rw [spiralBlock] at hnil
  rw [hnil] at h
  simp at h

theorem isRect_spiralBlock (w : Line) (ws : List Line) : IsRect (spiralBlock (w :: ws)) := by
  rw [spiralBlock]
  exact isRect_spiralGo _ _ _ _ (isRect_align _ _)

theorem dirSeq_getD (n : Nat) : ∀ d, d < 4 → ∀ i < n, (dirSeq d n).getD i 0 = (d + i) % 4 := by
  induction n with
  | zero => intro d _ i hi; cases hi
  | succ n ih =>
    intro d hd i hi
    cases i with
    | zero => simp [dirSeq, Nat.mod_eq_of_lt hd]
    | succ i =>
      have h4 : (d + 1) % 4 < 4 := Nat.mod_lt _ (by omega)
      have := ih ((d + 1) % 4) h4 i (by omega)
      simp only [dirSeq, List.getD_cons_succ]
      rw [this, Nat.mod_add_mod]
      congr 1
      omega

theorem length_dirSeq (n : Nat) : ∀ d, (dirSeq d n).length = n := by
  induction n with
  | zero => intro d; rfl
  | succ n ih => intro d; simp [dirSeq, ih]

theorem spiralGoDirs_eq_dirSeq (fuel : Nat) (r : List Line) (d : Nat) (ws : List Line) :
    spiralGoDirs fuel r d ws = dirSeq d (spiralGoDirs fuel r d ws).length := by
  induction fuel generalizing r d ws with
  | zero => cases ws <;> simp [spiralGoDirs, dirSeq]
  | succ fuel ih =>
    cases ws with
    | nil => simp [spiralGoDirs, dirSeq]
    | cons w ws' =>
      rw [spiralGoDirs]
      rw [List.length_cons, dirSeq]
      exact congrArg (d :: ·) (ih _ _ _)

/-- CLAIM C1 (amended form). For word lists of at least two words the loop
runs at least one phase, the phases follow the fixed successor cycle
0 TOP → 1 RIGHT → 2 BOTTOM → 3 LEFT → 0 TOP (the i-th executed phase has
direction (2 + i) mod 4), but the first phase executed immediately after
the marker line is BOTTOM (direction 2), not TOP. -/
theorem spiral_phase_cycle (w : Line) (ws : List Line) (h : ws ≠ []) :
    spiralDirs (w :: ws) ≠ [] ∧
    (spiralDirs (w :: ws)).headD 0 = 2 ∧
    (∀ i < (spiralDirs (w :: ws)).length,
       (spiralDirs (w :: ws)).getD i 0 = (2 + i) % 4) := by
  refine ⟨?_, ?_, ?_⟩
  · obtain ⟨b, t, rfl⟩ := List.exists_cons_of_ne_nil h
    simp [spiralDirs, spiralGoDirs]
  · obtain ⟨b, t, rfl⟩ := List.exists_cons_of_ne_nil h
    simp [spiralDirs, spiralGoDirs]
  · intro i hi
    have hds := spiralGoDirs_eq_dirSeq ws.length (align [marker w] .right) 2 ws
    simp only [spiralDirs] at hi ⊢
    rw [hds] at hi ⊢
    rw [length_dirSeq] at hi
    exact dirSeq_getD _ 2 (by omega) i hi

/-- Witness for the phase-cycle theorem at the concrete two-word input
["a", "b"]: the hypothesis holds and the conclusion evaluates. -/
theorem spiral_phase_cycle_witness :
    ([['b']] : List Line) ≠ [] ∧
    (spiralDirs [['a'], ['b']] ≠ [] ∧
      (spiralDirs [['a'], ['b']]).headD 0 = 2 ∧
      (∀ i < (spiralDirs [['a'], ['b']]).length,
        (spiralDirs [['a'], ['b']]).getD i 0 = (2 + i) % 4)) :=
  ⟨by decide, spiral_phase_cycle ['a'] [['b']] (by decide)⟩

/-- Counterexample for C1 as stated: on the two-word list ["a", "b"] the
only growth phase executed is direction 2 (BOTTOM), so the phase cycle does
not start with the TOP phase after the marker line. -/
theorem spiral_first_phase_not_top :
    spiralDirs [['a'], ['b']] = [2] ∧ (2 : Nat) ≠ 0 := by decide

/-! Characterization of the row-building loops for the stopping-rule claim. -/

theorem topRowLoop_spec (target : Nat) (ws : List Line) :
    ∀ row, ∃ k, k ≤ ws.length ∧
      topRowLoop target row ws = (row ++ ws.take k, ws.drop k) ∧
      (∀ j < k, (joinSpace (row ++ ws.take j)).length < target ∨ (row ++ ws.take j).length < 2) ∧
      (ws.drop k = [] ∨
        (target ≤ (joinSpace (row ++ ws.take k)).length ∧ 2 ≤ (row ++ ws.take k).length)) := by
  induction ws with
  | nil =>
    intro row
    exact ⟨0, by simp [topRowLoop]⟩
  | cons w ws' ih =>
    intro row
    rw [topRowLoop]
    split
    next hcnd =>
      obtain ⟨k, hk, heq, hcond, hstop⟩ := ih (row ++ [w])
      refine ⟨k + 1, by simpa using hk, ?_, ?_, ?_⟩
      · rw [heq]
        simp [List.append_assoc]
      · intro j hj
        cases j with
        | zero => simpa using hcnd
        | succ j =>
          have := hcond j (by omega)
          simpa [List.append_assoc] using this
      · simpa [List.append_assoc] using hstop
    next hcnd =>
      push_neg at hcnd
      exact ⟨0, Nat.zero_le _, by simp, fun j hj => absurd hj (Nat.not_lt_zero j),
        Or.inr (by simpa using hcnd)⟩

theorem bottomRowLoop_spec (target : Nat) (ws : List Line) :
    ∀ row, ∃ k, k ≤ ws.length ∧
      bottomRowLoop target row ws = ((ws.take k).reverse ++ row, ws.drop k) ∧
      (∀ j < k, (joinSpace ((ws.take j).reverse ++ row)).length < target ∨
        ((ws.take j).reverse ++ row).length < 2) ∧
      (ws.drop k = [] ∨
        (target ≤ (joinSpace ((ws.take k).reverse ++ row)).length ∧
          2 ≤ ((ws.take k).reverse ++ row).length)) := by
  induction ws with
  | nil =>
    intro row
    exact ⟨0, by simp [bottomRowLoop]⟩
  | cons w ws' ih =>
    intro row
    rw [bottomRowLoop]
    split
    next hcnd =>
      obtain ⟨k, hk, heq, hcond, hstop⟩ := ih (w :: row)
      refine ⟨k + 1, by simpa using hk, ?_, ?_, ?_⟩
      · rw [heq]
        simp [List.append_assoc]
      · intro j hj
        cases j with
        | zero => simpa using hcnd
        | succ j =>
          have := hcond j (by omega)
          simpa [List.append_assoc] using this
      · simpa [List.append_assoc] using hstop
    next hcnd =>
      push_neg at hcnd
      exact ⟨0, Nat.zero_le _, by simp, fun j hj => absurd hj (Nat.not_lt_zero j),
        Or.inr (by simpa using hcnd)⟩

/-- CLAIM C2 (amended form). In the TOP and BOTTOM phases the new row
starts as the single gap-sized blank prefix, and word consumption continues
while the rendered row length is below the target width or no word has yet
been placed (and words remain): it stops as soon as the rendered length
reaches the target width AND at least one word has been placed, or the word
list runs out. A single-word row therefore occurs with words remaining
whenever the first word alone reaches the target width; a zero-word row
occurs only when the words are already exhausted. -/
theorem row_building_stop_rule (gap target : Nat) (ws : List Line) :
    (∃ k, k ≤ ws.length ∧
      topRowLoop target [insertChars ' ' gap] ws
        = ([insertChars ' ' gap] ++ ws.take k, ws.drop k) ∧
      (∀ j < k, (joinSpace ([insertChars ' ' gap] ++ ws.take j)).length < target ∨ j = 0) ∧
      (ws.drop k = [] ∨
        (target ≤ (joinSpace ([insertChars ' ' gap] ++ ws.take k)).length ∧ 1 ≤ k))) ∧
    (∃ k, k ≤ ws.length ∧
      bottomRowLoop target [insertChars ' ' gap] ws
        = ((ws.take k).reverse ++ [insertChars ' ' gap], ws.drop k) ∧
      (∀ j < k, (joinSpace ((ws.take j).reverse ++ [insertChars ' ' gap])).length < target ∨
        j = 0) ∧
      (ws.drop k = [] ∨
        (target ≤ (joinSpace ((ws.take k).reverse ++ [insertChars ' ' gap])).length ∧
          1 ≤ k))) := by
  constructor
  · obtain ⟨k, hk, heq, hcond, hstop⟩ := topRowLoop_spec target ws [insertChars ' ' gap]
    refine ⟨k, hk, heq, ?_, ?_⟩
    · intro j hj
      rcases hcond j hj with h' | h'
      · exact Or.inl h'
      · right
        have : j ≤ ws.length := by omega
        simp [List.length_take, Nat.min_eq_left this] at h'
        omega
    · rcases hstop with h' | ⟨h1, h2⟩
      · exact Or.inl h'
      · right
        refine ⟨h1, ?_⟩
        simp [List.length_take, Nat.min_eq_left hk] at h2
        omega
  · obtain ⟨k, hk, heq, hcond, hstop⟩ := bottomRowLoop_spec target ws [insertChars ' ' gap]
    refine ⟨k, hk, heq, ?_, ?_⟩
    · intro j hj
      rcases hcond j hj with h' | h'
      · exact Or.inl h'
      · right
        have : j ≤ ws.length := by omega
        simp [List.length_take, Nat.min_eq_left this] at h'
        omega
    · rcases hstop with h' | ⟨h1, h2⟩
      · exact Or.inl h'
      · right
        refine ⟨h1, ?_⟩
        simp [List.length_take, Nat.min_eq_left hk] at h2
        omega

/-- Counterexample for C2 as stated. First conjunct: inside
spiral ["a", "bcd", "e"], the first (BOTTOM) growth phase builds its row
from the single word "bcd" and stops while the word "e" is still pending,
so a single-word row occurs although words are not exhausted. Second
conjunct: that phase's row loop (gap 3, target 7) keeps exactly one word.
Third conjunct: with a target of 20 the TOP row loop takes a third word
even though two words are already placed, so consumption does not stop as
soon as two words are in the row. -/
theorem row_building_claim_fails :
    (phaseBottom [marker ['a']] [['b', 'c', 'd'], ['e']]).2 = [['e']] ∧
    bottomRowLoop 7 [insertChars ' ' 3] [['b', 'c', 'd'], ['e']]
      = ([['b', 'c', 'd'], insertChars ' ' 3], [['e']]) ∧
    (topRowLoop 20 [insertChars ' ' 1] [['a'], ['b'], ['c']]).1
      = [insertChars ' ' 1, ['a'], ['b'], ['c']] := by decide

/-! Lemmas about segment containment, for the word-conservation claim. -/

theorem SubSeg.refl (w : Line) : SubSeg w w := ⟨[], [], by simp⟩

theorem SubSeg.trans {a b c : Line} (h1 : SubSeg a b) (h2 : SubSeg b c) : SubSeg a c := by
  obtain ⟨u, v, rfl⟩ := h1
  obtain ⟨x, y, rfl⟩ := h2
  exact ⟨x ++ u, v ++ y, by simp⟩

theorem SubSeg.appendRight {a l : Line} (h : SubSeg a l) (s : Line) : SubSeg a (l ++ s) := by
  obtain ⟨u, v, rfl⟩ := h
  exact ⟨u, v ++ s, by simp⟩

theorem SubSeg.appendLeft {a l : Line} (h : SubSeg a l) (s : Line) : SubSeg a (s ++ l) := by
  obtain ⟨u, v, rfl⟩ := h
  exact ⟨s ++ u, v, by simp⟩

theorem subSeg_padStartTo (l : Line) (n : Nat) : SubSeg l (padStartTo l n) :=
  (SubSeg.refl l).appendLeft _

theorem subSeg_padEndTo (l : Line) (n : Nat) : SubSeg l (padEndTo l n) :=
  (SubSeg.refl l).appendRight _

theorem mem_align_subseg (lines : List Line) {l : Line} (d : AlignDir) (h : l ∈ lines) :
    ∃ l' ∈ align lines d, SubSeg l l' := by
  cases d with
  | left =>
    exact ⟨padEndTo l (maxLen lines), by simp [align]; exact ⟨l, h, rfl⟩, subSeg_padEndTo _ _⟩
  | right =>
    exact ⟨padStartTo l (maxLen lines), by simp [align]; exact ⟨l, h, rfl⟩, subSeg_padStartTo _ _⟩

theorem subSeg_joinSpace : ∀ (row : List Line), ∀ l ∈ row, SubSeg l (joinSpace row) := by
  intro row
  induction row with
  | nil => intro l h; cases h
  | cons a t ih =>
    intro l hl
    cases t with
    | nil =>
      simp at hl
      subst hl
      exact SubSeg.refl l
    | cons b t' =>
      cases hl with
      | head => exact ⟨[], ' ' :: joinSpace (b :: t'), by simp [joinSpace]⟩
      | tail _ h' =>
        obtain ⟨u, v, huv⟩ := ih l h'
        exact ⟨a ++ ' ' :: u, v, by simp [joinSpace, huv]⟩

theorem setAppend_cons_zero (a : Line) (t : List Line) (s : Line) :
    setAppend (a :: t) 0 s = (a ++ s) :: t := by simp [setAppend]

theorem setAppend_cons_succ (a : Line) (t : List Line) (n : Nat) (s : Line) :
    setAppend (a :: t) (n + 1) s = a :: setAppend t n s := by simp [setAppend]

theorem setPrepend_cons_zero (a : Line) (t : List Line) (s : Line) :
    setPrepend (a :: t) 0 s = (s ++ a) :: t := by simp [setPrepend]

theorem setPrepend_cons_succ (a : Line) (t : List Line) (n : Nat) (s : Line) :
    setPrepend (a :: t) (n + 1) s = a :: setPrepend t n s := by simp [setPrepend]

theorem setAppend_mono : ∀ (r : List Line) (idx : Nat) (s : Line),
    ∀ l ∈ r, ∃ l' ∈ setAppend r idx s, SubSeg l l' := by
  intro r
  induction r with
  | nil => intro idx s l hl; cases hl
  | cons a t ih =>
    intro idx s l hl
    cases idx with
    | zero =>
      rw [setAppend_cons_zero]
      cases hl with
      | head => exact ⟨a ++ s, List.mem_cons_self _ _, (SubSeg.refl a).appendRight s⟩
      | tail _ h' => exact ⟨l, List.mem_cons_of_mem _ h', SubSeg.refl l⟩
    | succ idx' =>
      rw [setAppend_cons_succ]
      cases hl with
      | head => exact ⟨a, List.mem_cons_self _ _, SubSeg.refl a⟩
      | tail _ h' =>
        obtain ⟨l', hm, hs⟩ := ih idx' s l h'
        exact ⟨l', List.mem_cons_of_mem _ hm, hs⟩

theorem setPrepend_mono : ∀ (r : List Line) (idx : Nat) (s : Line),
    ∀ l ∈ r, ∃ l' ∈ setPrepend r idx s, SubSeg l l' := by
  intro r
  induction r with
  | nil => intro idx s l hl; cases hl
  | cons a t ih =>
    intro idx s l hl
    cases idx with
    | zero =>
      rw [setPrepend_cons_zero]
      cases hl with
      | head => exact ⟨s ++ a, List.mem_cons_self _ _, (SubSeg.refl a).appendLeft s⟩
      | tail _ h' => exact ⟨l, List.mem_cons_of_mem _ h', SubSeg.refl l⟩
    | succ idx' =>
      rw [setPrepend_cons_succ]
      cases hl with
      | head => exact ⟨a, List.mem_cons_self _ _, SubSeg.refl a⟩
      | tail _ h' =>
        obtain ⟨l', hm, hs⟩ := ih idx' s l h'
        exact ⟨l', List.mem_cons_of_mem _ hm, hs⟩

theorem setAppend_self_mem : ∀ (r : List Line) (idx : Nat) (s : Line), idx < r.length →
    ∃ l' ∈ setAppend r idx s, SubSeg s l' := by
  intro r
  induction r with
  | nil => intro idx s h; cases h
  | cons a t ih =>
    intro idx s h
    cases idx with
    | zero =>
      rw [setAppend_cons_zero]
      exact ⟨a ++ s, List.mem_cons_self _ _, (SubSeg.refl s).appendLeft a⟩
    | succ idx' =>
      rw [setAppend_cons_succ]
      obtain ⟨l', hm, hs⟩ := ih idx' s (by simpa using h)
      exact ⟨l', List.mem_cons_of_mem _ hm, hs⟩

theorem setPrepend_self_mem : ∀ (r : List Line) (idx : Nat) (s : Line), idx < r.length →
    ∃ l' ∈ setPrepend r idx s, SubSeg s l' := by
  intro r
  induction r with
  | nil => intro idx s h; cases h
  | cons a t ih =>
    intro idx s h
    cases idx with
    | zero =>
      rw [setPrepend_cons_zero]
      exact ⟨s ++ a, List.mem_cons_self _ _, (SubSeg.refl s).appendRight a⟩
    | succ idx' =>
      rw [setPrepend_cons_succ]
      obtain ⟨l', hm, hs⟩ := ih idx' s (by simpa using h)
      exact ⟨l', List.mem_cons_of_mem _ hm, hs⟩

theorem place_in_align_append (r1 : List Line) (sep jrow : Line) (d : AlignDir) (v : Line)
    (h : SubSeg v jrow) : ∃ l ∈ align (r1 ++ [sep, jrow]) d, SubSeg v l := by
  obtain ⟨l', hl', hsub⟩ := mem_align_subseg (r1 ++ [sep, jrow]) d (l := jrow) (by simp)
  exact ⟨l', hl', h.trans hsub⟩

theorem place_in_align_cons (sep jrow : Line) (r : List Line) (d : AlignDir) (v : Line)
    (h : SubSeg v jrow) : ∃ l ∈ align (jrow :: sep :: r) d, SubSeg v l := by
  obtain ⟨l', hl', hsub⟩ := mem_align_subseg (jrow :: sep :: r) d (l := jrow) (by simp)
  exact ⟨l', hl', h.trans hsub⟩

theorem phaseTop_words (r ws : List Line) :
    ∃ k, k ≤ ws.length ∧ (phaseTop r ws).2 = ws.drop k ∧
      (∀ v ∈ ws.take k, ∃ l ∈ (phaseTop r ws).1, SubSeg v l) ∧
      (∀ l ∈ r, ∃ l' ∈ (phaseTop r ws).1, SubSeg l l') ∧
      (ws ≠ [] → 1 ≤ k) := by
  obtain ⟨k, hk, heq, -, hstop⟩ :=
    topRowLoop_spec (r.headD []).length ws
      [insertChars ' ' ((beforeBar (r.getLastD [])).length + 1)]
  refine ⟨k, hk, ?_, ?_, ?_, ?_⟩
  · simp only [phaseTop, heq]
  · intro v hv
    simp only [phaseTop, heq]
    refine place_in_align_append _ _ _ _ _ ?_
    exact subSeg_joinSpace _ v (List.mem_append_right _ hv)
  · intro l hl
    simp only [phaseTop, heq]
    obtain ⟨l0, hl0, hs0⟩ := mem_align_subseg r .right hl
    obtain ⟨l1, hl1, hs1⟩ := mem_align_subseg _ .left (List.mem_append_left _ hl0)
    exact ⟨l1, hl1, hs0.trans hs1⟩
  · intro hne
    rcases Nat.eq_zero_or_pos k with rfl | hpos
    · rcases hstop with h | ⟨-, h⟩
      · simp at h
        exact absurd h hne
      · simp at h
    · exact hpos

theorem phaseBottom_words (r ws : List Line) :
    ∃ k, k ≤ ws.length ∧ (phaseBottom r ws).2 = ws.drop k ∧
      (∀ v ∈ ws.take k, ∃ l ∈ (phaseBottom r ws).1, SubSeg v l) ∧
      (∀ l ∈ r, ∃ l' ∈ (phaseBottom r ws).1, SubSeg l l') ∧
      (ws ≠ [] → 1 ≤ k) := by
  obtain ⟨k, hk, heq, -, hstop⟩ :=
    bottomRowLoop_spec (r.getLastD []).length ws
      [insertChars ' ' ((afterLastBar (r.headD [])).length + 1)]
  refine ⟨k, hk, ?_, ?_, ?_, ?_⟩
  · simp only [phaseBottom, heq]
  · intro v hv
    simp only [phaseBottom, heq]
    refine place_in_align_cons _ _ _ _ _ ?_
    refine subSeg_joinSpace _ v (List.mem_append_left _ ?_)
    simpa using hv
  · intro l hl
    simp only [phaseBottom, heq]
    obtain ⟨l1, hl1, hs1⟩ := mem_align_subseg _ .right (List.mem_cons_of_mem _ (List.mem_cons_of_mem _ hl))
    exact ⟨l1, hl1, hs1⟩
  · intro hne
    rcases Nat.eq_zero_or_pos k with rfl | hpos
    · rcases hstop with h | ⟨-, h⟩
      · simp at h
        exact absurd h hne
      · simp at h
    · exact hpos

theorem rightLoop_words : ∀ (ws r : List Line) (i : Nat),
    ∃ k, k ≤ ws.length ∧ (rightLoop r i ws).2 = ws.drop k ∧
      (∀ v ∈ ws.take k, ∃ l ∈ (rightLoop r i ws).1, SubSeg v l) ∧
      (∀ l ∈ r, ∃ l' ∈ (rightLoop r i ws).1, SubSeg l l') ∧
      (i < r.length → ws ≠ [] → 1 ≤ k) := by
  intro ws
  induction ws with
  | nil =>
    intro r i
    refine ⟨0, by simp, ?_, by simp, ?_, by simp⟩
    · rw [rightLoop]
      split <;> rfl
    · intro l hl
      rw [rightLoop]
      split
      · exact ⟨l, hl, SubSeg.refl l⟩
      · exact ⟨l, hl, SubSeg.refl l⟩
  | cons w ws' ih =>
    intro r i
    by_cases hb : r.length ≤ i
    · refine ⟨0, by simp, ?_, by simp, ?_, ?_⟩
      · rw [rightLoop, if_pos hb]
        rfl
      · intro l hl
        rw [rightLoop, if_pos hb]
        exact ⟨l, hl, SubSeg.refl l⟩
      · intro hlt _
        omega
    · obtain ⟨k', hk', hdrop, hplace, hmono, -⟩ :=
        ih (setAppend r (r.length - 1 - i) ('|' :: ' ' :: w)) (i + 1)
      refine ⟨k' + 1, by simpa using hk', ?_, ?_, ?_, fun _ _ => by omega⟩
      · rw [rightLoop, if_neg hb]
        simpa using hdrop
      · intro v hv
        rw [rightLoop, if_neg hb]
        simp only [List.take_succ_cons] at hv
        rcases List.mem_cons.mp hv with rfl | hv'
        · have hidx : r.length - 1 - i < r.length := by omega
          obtain ⟨l0, hl0, hs0⟩ := setAppend_self_mem r (r.length - 1 - i) ('|' :: ' ' :: v) hidx
          obtain ⟨l1, hl1, hs1⟩ := hmono l0 hl0
          have hvs : SubSeg v ('|' :: ' ' :: v) := ⟨['|', ' '], [], by simp⟩
          exact ⟨l1, by simpa using hl1, (hvs.trans hs0).trans hs1⟩
        · obtain ⟨l1, hl1, hs1⟩ := hplace v hv'
          exact ⟨l1, by simpa using hl1, hs1⟩
      · intro l hl
        rw [rightLoop, if_neg hb]
        obtain ⟨l0, hl0, hs0⟩ := setAppend_mono r (r.length - 1 - i) ('|' :: ' ' :: w) l hl
        obtain ⟨l1, hl1, hs1⟩ := hmono l0 hl0
        exact ⟨l1, by simpa using hl1, hs0.trans hs1⟩

theorem leftLoop_words : ∀ (ws r : List Line) (i : Nat),
    ∃ k, k ≤ ws.length ∧ (leftLoop r i ws).2 = ws.drop k ∧
      (∀ v ∈ ws.take k, ∃ l ∈ (leftLoop r i ws).1, SubSeg v l) ∧
      (∀ l ∈ r, ∃ l' ∈ (leftLoop r i ws).1, SubSeg l l') ∧
      (i < r.length → ws ≠ [] → 1 ≤ k) := by
  intro ws
  induction ws with
  | nil =>
    intro r i
    refine ⟨0, by simp, ?_, by simp, ?_, by simp⟩
    · rw [leftLoop]
      split <;> rfl
    · intro l hl
      rw [leftLoop]
      split
      · exact ⟨l, hl, SubSeg.refl l⟩
      · exact ⟨l, hl, SubSeg.refl l⟩
  | cons w ws' ih =>
    intro r i
    by_cases hb : r.length ≤ i
    · refine ⟨0, by simp, ?_, by simp, ?_, ?_⟩
      · rw [leftLoop, if_pos hb]
        rfl
      · intro l hl
        rw [leftLoop, if_pos hb]
        exact ⟨l, hl, SubSeg.refl l⟩
      · intro hlt _
        omega
    · obtain ⟨k', hk', hdrop, hplace, hmono, -⟩ :=
        ih (setPrepend r i (w ++ [' ', '|'])) (i + 1)
      refine ⟨k' + 1, by simpa using hk', ?_, ?_, ?_, fun _ _ => by omega⟩
      · rw [leftLoop, if_neg hb]
        simpa using hdrop
      · intro v hv
        rw [leftLoop, if_neg hb]
        simp only [List.take_succ_cons] at hv
        rcases List.mem_cons.mp hv with rfl | hv'
        · have hidx : i < r.length := by omega
          obtain ⟨l0, hl0, hs0⟩ := setPrepend_self_mem r i (v ++ [' ', '|']) hidx
          obtain ⟨l1, hl1, hs1⟩ := hmono l0 hl0
          have hvs : SubSeg v (v ++ [' ', '|']) := ⟨[], [' ', '|'], by simp⟩
          exact ⟨l1, by simpa using hl1, (hvs.trans hs0).trans hs1⟩
        · obtain ⟨l1, hl1, hs1⟩ := hplace v hv'
          exact ⟨l1, by simpa using hl1, hs1⟩
      · intro l hl
        rw [leftLoop, if_neg hb]
        obtain ⟨l0, hl0, hs0⟩ := setPrepend_mono r i (w ++ [' ', '|']) l hl
        obtain ⟨l1, hl1, hs1⟩ := hmono l0 hl0
        exact ⟨l1, by simpa using hl1, hs0.trans hs1⟩

theorem phaseRight_words (r ws : List Line) :
    ∃ k, k ≤ ws.length ∧ (phaseRight r ws).2 = ws.drop k ∧
      (∀ v ∈ ws.take k, ∃ l ∈ (phaseRight r ws).1, SubSeg v l) ∧
      (∀ l ∈ r, ∃ l' ∈ (phaseRight r ws).1, SubSeg l l') ∧
      (2 < r.length → ws ≠ [] → 1 ≤ k) := by
  obtain ⟨k, hk, hdrop, hplace, hmono, hprog⟩ := rightLoop_words ws r 2
  refine ⟨k, hk, ?_, ?_, ?_, hprog⟩
  · simpa only [phaseRight] using hdrop
  · intro v hv
    simp only [phaseRight]
    obtain ⟨l0, hl0, hs0⟩ := hplace v hv
    obtain ⟨l1, hl1, hs1⟩ := mem_align_subseg _ .left hl0
    exact ⟨l1, hl1, hs0.trans hs1⟩
  · intro l hl
    simp only [phaseRight]
    obtain ⟨l0, hl0, hs0⟩ := hmono l hl
    obtain ⟨l1, hl1, hs1⟩ := mem_align_subseg _ .left hl0
    exact ⟨l1, hl1, hs0.trans hs1⟩

theorem phaseLeft_words (r ws : List Line) :
    ∃ k, k ≤ ws.length ∧ (phaseLeft r ws).2 = ws.drop k ∧
      (∀ v ∈ ws.take k, ∃ l ∈ (phaseLeft r ws).1, SubSeg v l) ∧
      (∀ l ∈ r, ∃ l' ∈ (phaseLeft r ws).1, SubSeg l l') ∧
      (2 < r.length → ws ≠ [] → 1 ≤ k) := by
  obtain ⟨k, hk, hdrop, hplace, hmono, hprog⟩ := leftLoop_words ws r 2
  refine ⟨k, hk, ?_, ?_, ?_, hprog⟩
  · simpa only [phaseLeft] using hdrop
  · intro v hv
    simp only [phaseLeft]
    obtain ⟨l0, hl0, hs0⟩ := hplace v hv
    obtain ⟨l1, hl1, hs1⟩ := mem_align_subseg _ .right hl0
    exact ⟨l1, hl1, hs0.trans hs1⟩
  · intro l hl
    simp only [phaseLeft]
    obtain ⟨l0, hl0, hs0⟩ := hmono l hl
    obtain ⟨l1, hl1, hs1⟩ := mem_align_subseg _ .right hl0
    exact ⟨l1, hl1, hs0.trans hs1⟩

theorem length_phaseTop (r ws : List Line) : (phaseTop r ws).1.length = r.length + 2 := by
  simp [phaseTop, length_align]

theorem length_phaseBottom (r ws : List Line) :
    (phaseBottom r ws).1.length = r.length + 2 := by
  simp [phaseBottom, length_align]

theorem phaseStep_words (d : Nat) (r ws : List Line) :
    ∃ k, k ≤ ws.length ∧ (phaseStep d r ws).2 = ws.drop k ∧
      (∀ v ∈ ws.take k, ∃ l ∈ (phaseStep d r ws).1, SubSeg v l) ∧
      (∀ l ∈ r, ∃ l' ∈ (phaseStep d r ws).1, SubSeg l l') := by
  match d with
  | 0 =>
    simp only [phaseStep]
    obtain ⟨k, hk, h1, h2, h3, -⟩ := phaseTop_words r ws
    exact ⟨k, hk, h1, h2, h3⟩
  | 1 =>
    simp only [phaseStep]
    obtain ⟨k, hk, h1, h2, h3, -⟩ := phaseRight_words r ws
    exact ⟨k, hk, h1, h2, h3⟩
  | 2 =>
    simp only [phaseStep]
    obtain ⟨k, hk, h1, h2, h3, -⟩ := phaseBottom_words r ws
    exact ⟨k, hk, h1, h2, h3⟩
  | 3 =>
    simp only [phaseStep]
    obtain ⟨k, hk, h1, h2, h3, -⟩ := phaseLeft_words r ws
    exact ⟨k, hk, h1, h2, h3⟩
  | _ + 4 =>
    simp only [phaseStep]
    exact ⟨0, by simp, rfl, by simp, fun l hl => ⟨l, hl, SubSeg.refl l⟩⟩

theorem loopInv_start (w : Line) : LoopInv (align [marker w] .right) 2 := by
  refine ⟨by omega, ?_, Or.inr (Or.inr rfl)⟩
  rw [length_align]
  simp

theorem loopInv_step (d : Nat) (r ws : List Line) (h : LoopInv r d) :
    LoopInv (phaseStep d r ws).1 ((d + 1) % 4) := by
  obtain ⟨hd4, hr1, hr3⟩ := h
  refine ⟨Nat.mod_lt _ (by omega), le_trans hr1 (length_phaseStep_ge d r ws), Or.inl ?_⟩
  rcases hr3 with h3 | h0 | h2
  · exact le_trans h3 (length_phaseStep_ge d r ws)
  · subst h0
    show 3 ≤ (phaseTop r ws).1.length
    rw [length_phaseTop]
    omega
  · subst h2
    show 3 ≤ (phaseBottom r ws).1.length
    rw [length_phaseBottom]
    omega

theorem phaseStep_progress (d : Nat) (r : List Line) (w : Line) (ws : List Line)
    (h : LoopInv r d) : (phaseStep d r (w :: ws)).2.length < (w :: ws).length := by
  obtain ⟨hd4, hr1, hr3⟩ := h
  interval_cases d
  · simp only [phaseStep]
    obtain ⟨k, hk, h1, -, -, hp⟩ := phaseTop_words r (w :: ws)
    have hk1 : 1 ≤ k := hp (by simp)
    rw [h1, List.length_drop]
    simp only [List.length_cons] at hk ⊢
    omega
  · have h3 : 3 ≤ r.length := by
      rcases hr3 with h3 | h0 | h2
      · exact h3
      · omega
      · omega
    simp only [phaseStep]
    obtain ⟨k, hk, h1, -, -, hp⟩ := phaseRight_words r (w :: ws)
    have hk1 : 1 ≤ k := hp (by omega) (by simp)
    rw [h1, List.length_drop]
    simp only [List.length_cons] at hk ⊢
    omega
  · simp only [phaseStep]
    obtain ⟨k, hk, h1, -, -, hp⟩ := phaseBottom_words r (w :: ws)
    have hk1 : 1 ≤ k := hp (by simp)
    rw [h1, List.length_drop]
    simp only [List.length_cons] at hk ⊢
    omega
  · have h3 : 3 ≤ r.length := by
      rcases hr3 with h3 | h0 | h2
      · exact h3
      · omega
      · omega
    simp only [phaseStep]
    obtain ⟨k, hk, h1, -, -, hp⟩ := phaseLeft_words r (w :: ws)
    have hk1 : 1 ≤ k := hp (by omega) (by simp)
    rw [h1, List.length_drop]
    simp only [List.length_cons] at hk ⊢
    omega

theorem spiralGo_words : ∀ (fuel : Nat) (r : List Line) (d : Nat) (ws : List Line),
    LoopInv r d → ws.length ≤ fuel →
    spiralGoConsumed fuel r d ws = ws ∧
      (∀ v ∈ ws, ∃ l ∈ (spiralGo fuel r d ws).1, SubSeg v l) ∧
      (∀ l ∈ r, ∃ l' ∈ (spiralGo fuel r d ws).1, SubSeg l l') := by
  intro fuel
  induction fuel with
  | zero =>
    intro r d ws hInv hf
    have hws : ws = [] := List.eq_nil_of_length_eq_zero (Nat.le_zero.mp hf)
    subst hws
    exact ⟨rfl, by simp, fun l hl => ⟨l, hl, SubSeg.refl l⟩⟩
  | succ fuel ih =>
    intro r d ws hInv hf
    cases ws with
    | nil => exact ⟨rfl, by simp, fun l hl => ⟨l, hl, SubSeg.refl l⟩⟩
    | cons w ws' =>
      obtain ⟨k, hk, hdrop, hplace, hmono⟩ := phaseStep_words d r (w :: ws')
      have hprog := phaseStep_progress d r w ws' hInv
      have hInv' := loopInv_step d r (w :: ws') hInv
      have hf' : (phaseStep d r (w :: ws')).2.length ≤ fuel := by
        simp only [List.length_cons] at hf hprog
        omega
      obtain ⟨ihc, ihp, ihm⟩ :=
        ih (phaseStep d r (w :: ws')).1 ((d + 1) % 4) (phaseStep d r (w :: ws')).2 hInv' hf'
      refine ⟨?_, ?_, ?_⟩
      · rw [spiralGoConsumed]
        rw [hdrop] at ihc ⊢
        rw [ihc, List.length_drop]
        have hsub : (w :: ws').length - ((w :: ws').length - k) = k := by omega
        rw [hsub, List.take_append_drop]
      · intro v hv
        rw [spiralGo]
        have hsplit : v ∈ (w :: ws').take k ++ (w :: ws').drop k := by
          rw [List.take_append_drop]
          exact hv
        rcases List.mem_append.mp hsplit with hvt | hvd
        · obtain ⟨l0, hl0, hs0⟩ := hplace v hvt
          obtain ⟨l1, hl1, hs1⟩ := ihm l0 hl0
          exact ⟨l1, hl1, hs0.trans hs1⟩
        · have hv2 : v ∈ (phaseStep d r (w :: ws')).2 := by
            rw [hdrop]
            exact hvd
          exact ihp v hv2
      · intro l hl
        rw [spiralGo]
        obtain ⟨l0, hl0, hs0⟩ := hmono l hl
        obtain ⟨l1, hl1, hs1⟩ := ihm l0 hl0
        exact ⟨l1, hl1, hs0.trans hs1⟩

/-- CLAIM C9 (confirmed). Word conservation for the spiral layout: the
growth loop consumes, front-first and in order, exactly the input words
after the first (which the marker line consumes), so each input word is
removed exactly once and none is dropped or duplicated; and every input
word, the first included, ends up as a contiguous segment of a line of the
output. -/
theorem spiral_words_once (w : Line) (ws : List Line) :
    spiralConsumed (w :: ws) = ws ∧
    (∀ v ∈ w :: ws, ∃ l ∈ spiralLines (w :: ws), SubSeg v l) := by
  obtain ⟨hcons, hplace, hmono⟩ :=
    spiralGo_words ws.length (align [marker w] .right) 2 ws (loopInv_start w) (le_refl _)
  refine ⟨hcons, ?_⟩
  have hblock : ∀ v', (∃ l ∈ spiralBlock (w :: ws), SubSeg v' l) →
      ∃ l ∈ spiralLines (w :: ws), SubSeg v' l := by
    rintro v' ⟨l, hl, hs⟩
    refine ⟨l, ?_, hs⟩
    simp only [spiralLines]
    exact List.mem_append_left _ hl
  intro v hv
  rcases List.mem_cons.mp hv with rfl | hv'
  · have hm : SubSeg v (marker v) := ⟨['>', '>', '>', ' ', '|', ' '], [], by simp [marker]⟩
    obtain ⟨l0, hl0, hs0⟩ :=
      mem_align_subseg [marker v] (l := marker v) .right (by simp)
    obtain ⟨l1, hl1, hs1⟩ := hmono l0 hl0
    exact hblock v ⟨l1, by simpa [spiralBlock] using hl1, (hm.trans hs0).trans hs1⟩
  · obtain ⟨l1, hl1, hs1⟩ := hplace v hv'
    exact hblock v ⟨l1, by simpa [spiralBlock] using hl1, hs1⟩

/-- CLAIM C10 (confirmed). For every input that yields no words — the empty
string, a string of only delimiters and whitespace, or a null/non-string
value — generateSpiral returns the empty string. The embedding is a total
function, so no exception can be raised on these inputs. -/
theorem generateSpiral_no_words (o : Option Line) (h : wordsOfInput o = []) :
    generateSpiral o = [] := by
  cases o with
  | none => rfl
  | some s =>
    simp only [wordsOfInput] at h
    simp [generateSpiral, h]

/-- Witness for C10: a string of delimiters and blanks yields no words, and
generateSpiral maps it to the empty string. -/
theorem generateSpiral_no_words_witness :
    wordsOfInput (some [' ', ',', ' ', ',', ',', ' ']) = [] ∧
    generateSpiral (some [' ', ',', ' ', ',', ',', ' ']) = [] :=
  ⟨by decide, generateSpiral_no_words _ (by decide)⟩

/-- CLAIM C6 (amended form). For a single word the output block is exactly
the marker line followed by the two fixed ornament lines and nothing else —
no separator rows; each ornament line is indented by the marker line's full
width plus three blanks, so the ornament extends beyond the marker width
rather than being right-aligned within it. -/
theorem spiral_single_word (w : Line) :
    spiralLines [w] = [marker w,
      insertChars ' ' (w.length + 9) ++ snail1,
      insertChars ' ' (w.length + 9) ++ snail2] := by
  have hb : spiralBlock [w] = [marker w] := by
    simp [spiralBlock, spiralGo, align_single]
  have hm : (marker w).length + 3 = w.length + 9 := by
    simp [marker]
  simp [spiralLines, hb, hm]

/-- Counterexample for C6 as stated: for the single word "a" the two
ornament lines are 10 and 12 characters longer than the marker line, hence
not right-aligned to the marker line's width. -/
theorem spiral_single_word_overshoot :
    ((spiralLines [['a']]).getD 1 []).length = (marker ['a']).length + 10 ∧
    ((spiralLines [['a']]).getD 2 []).length = (marker ['a']).length + 12 := by
  decide

/-- CLAIM C4 (amended form). For every non-empty word list the block built
by the loop is rectangular — all its lines share one width W — but the two
trailing ornament lines appended afterwards have lengths W + 10 and W + 12,
so the complete output is not a rectangle; the rectangle is the output
without its last two lines. -/
theorem spiral_block_rect (w : Line) (ws : List Line) :
    ∃ W, (∀ l ∈ spiralBlock (w :: ws), l.length = W) ∧
      spiralLines (w :: ws) =
        spiralBlock (w :: ws) ++
          [insertChars ' ' (W + 3) ++ snail1, insertChars ' ' (W + 3) ++ snail2] ∧
      (insertChars ' ' (W + 3) ++ snail1).length = W + 10 ∧
      (insertChars ' ' (W + 3) ++ snail2).length = W + 12 := by
  obtain ⟨W, hW⟩ := isRect_spiralBlock w ws
  have hne := spiralBlock_ne_nil w ws
  have hhead : (spiralBlock (w :: ws)).headD [] ∈ spiralBlock (w :: ws) := by
    cases h : spiralBlock (w :: ws) with
    | nil => exact absurd h hne
    | cons a t => simp [h]
  have hlen : ((spiralBlock (w :: ws)).headD []).length = W := hW _ hhead
  refine ⟨W, hW, ?_, ?_, ?_⟩
  · simp only [spiralLines]
    rw [hlen]
  · simp [insertChars, snail1]
  · simp [insertChars, snail2]

/-- Counterexample for C4 as stated: for input word list ["a"] the joined
output's lines have lengths 7, 17 and 19, so not every line of the complete
layout result has equal length. -/
theorem spiral_output_not_rectangular :
    (spiralLines [['a']]).map List.length = [7, 17, 19] ∧
    ¬ (∀ l ∈ spiralLines [['a']], l.length = ((spiralLines [['a']]).headD []).length) := by
  decide

end Spiral

namespace Sched

/-! Lemmas about the job model. -/

theorem updateStatus_jobId (j : Job) (st : JobStatus) (fp em : Option String) :
    (updateStatus j st fp em).jobId = j.jobId := rfl

theorem updateStatus_createdAt (j : Job) (st : JobStatus) (fp em : Option String) :
    (updateStatus j st fp em).createdAt = j.createdAt := rfl

theorem updateStatus_status (j : Job) (st : JobStatus) (fp em : Option String) :
    (updateStatus j st fp em).status = st := rfl

theorem renderErrMsg_ne_vacant (m : String) : renderErrMsg m ≠ "" := by
  intro h
  have hl := congrArg String.length h
  rw [renderErrMsg, String.length_append] at hl
  have h23 : ("PDF generation failed: " : String).length = 23 := rfl
  have h0 : ("" : String).length = 0 := rfl
  omega

theorem map_jobId_statusMap (store : Store) :
    (store.map (fun j =>
      if j.status = .processing then { j with status := JobStatus.pending } else j)).map
        Job.jobId = store.map Job.jobId := by
  induction store with
  | nil => rfl
  | cons a t ih => by_cases hp : a.status = .processing <;> simp [hp, ih]

/-- CLAIM C5 (confirmed). Startup recovery: after resumeProcessingJobs no
record is in processing status, the list of record ids is unchanged (no
record lost), and positionally every record that was processing is the same
record reset to pending while every other record is untouched. -/
theorem resume_resets_all_processing (store : Store) :
    (∀ j ∈ resumeProcessingJobs store, j.status ≠ .processing) ∧
    (resumeProcessingJobs store).map Job.jobId = store.map Job.jobId ∧
    (∀ i : Nat, (resumeProcessingJobs store)[i]? =
      (store[i]?).map (fun j =>
        if j.status = .processing then { j with status := .pending } else j)) := by
  by_cases h : 0 < (store.filter (fun j => j.status == .processing)).length
  · rw [resumeProcessingJobs, if_pos h]
    refine ⟨?_, map_jobId_statusMap store, ?_⟩
    · intro j hj
      obtain ⟨j₀, hj₀, rfl⟩ := List.mem_map.mp hj
      by_cases hp : j₀.status = .processing
      · simp [hp]
      · simp [hp]
    · intro i
      rw [List.getElem?_map]
  · rw [resumeProcessingJobs, if_neg h]
    have hnil : store.filter (fun j => j.status == .processing) = [] := by
      cases hf : store.filter (fun j => j.status == .processing) with
      | nil => rfl
      | cons a t => rw [hf] at h; simp at h
    have hall : ∀ j ∈ store, j.status ≠ .processing := by
      intro j hj hp
      have hmem : j ∈ store.filter (fun j => j.status == .processing) :=
        List.mem_filter.mpr ⟨hj, by simp [hp]⟩
      rw [hnil] at hmem
      cases hmem
    refine ⟨hall, rfl, ?_⟩
    intro i
    cases hg : store[i]? with
    | none => rfl
    | some j =>
      have hj : j ∈ store := List.getElem?_mem hg
      simp [hall j hj]

/-- CLAIM C8 (confirmed). Every tick terminates with outward outcome ok —
no exception escapes processNextJob whatever the find, save and render
oracles do — a tick that enters the body ends with the in-flight flag
false, and a tick that begins while a render is in flight is a complete
no-op that leaves the flag, the store and the trace unchanged. -/
theorem tick_no_escape_resets_flag (flag : Bool) (store : Store) (env : TickEnv) :
    (processNextJob flag store env).2.2.2 = Except.ok () ∧
    (processNextJob false store env).1 = false ∧
    processNextJob true store env = (true, store, [], Except.ok ()) := by
  refine ⟨?_, ?_, rfl⟩
  · cases flag
    · cases hb : (tickBody store env).2.2 <;> simp [processNextJob, hb]
    · rfl
  · simp [processNextJob]

theorem job_fields_core (j : Job) (h : JobReach j) :
    (j.filePath ≠ none →
      j.status = .completed ∨ (j.status = .failed ∧ j.errorMessage ≠ none)) ∧
    (j.errorMessage ≠ none → j.status = .failed) ∧
    ((j.status = .pending ∨ j.status = .processing) →
      j.filePath = none ∧ j.errorMessage = none) := by
  induction h with
  | created id content t => simp [newJob]
  | toProcessing hr hp ih =>
    obtain ⟨hfp, hem⟩ := ih.2.2 (Or.inl hp)
    simp [updateStatus, jsTruthy, hfp, hem]
  | toCompleted fn hr hp ih =>
    obtain ⟨hfp, hem⟩ := ih.2.2 (Or.inr hp)
    simp [updateStatus, jsTruthy, hfp, hem]
  | toFailed m hr hp ih =>
    obtain ⟨hfp, hem⟩ := ih.2.2 (Or.inr hp)
    simp [updateStatus, jsTruthy, hfp, hem, renderErrMsg_ne_vacant m]
  | toFailedAfterCompMark fn m hr hp ih =>
    obtain ⟨hfp, hem⟩ := ih.2.2 (Or.inr hp)
    simp [updateStatus, jsTruthy, hfp, hem, renderErrMsg_ne_vacant m]
  | recovered hr hp ih =>
    obtain ⟨hfp, hem⟩ := ih.2.2 (Or.inr hp)
    simp [hfp, hem]

/-- CLAIM C7 (amended form). In every reachable job record the error detail
(errorMessage) is non-null only in failed status, a pending or processing
record has both fields null, and marking a processing record failed with a
render error message yields failed status, that non-null error detail, and
a still-null artifact reference. The artifact reference (filePath) is
non-null only in completed status OR in a failed record whose error detail
is also non-null — the state persisted when the completed-save throws after
a successful render and the failed-mark save carries the in-memory
filename. -/
theorem job_record_field_invariant (j : Job) (h : JobReach j) :
    (j.filePath ≠ none →
      j.status = .completed ∨ (j.status = .failed ∧ j.errorMessage ≠ none)) ∧
    (j.errorMessage ≠ none → j.status = .failed) ∧
    ((j.status = .pending ∨ j.status = .processing) →
      j.filePath = none ∧ j.errorMessage = none) ∧
    (∀ m, j.status = .processing →
      (updateStatus j .failed none (some (renderErrMsg m))).status = .failed ∧
      (updateStatus j .failed none (some (renderErrMsg m))).errorMessage
        = some (renderErrMsg m) ∧
      (updateStatus j .failed none (some (renderErrMsg m))).filePath = none) := by
  obtain ⟨h1, h2, h3⟩ := job_fields_core j h
  refine ⟨h1, h2, h3, ?_⟩
  intro m hp
  have hfp : j.filePath = none := (h3 (Or.inr hp)).1
  refine ⟨rfl, ?_, ?_⟩
  · simp [updateStatus, jsTruthy, renderErrMsg_ne_vacant m]
  · simp [updateStatus, jsTruthy, hfp]

/-- Counterexample for C7 as stated: the completed-save-failure path
persists a reachable record in failed status whose artifact reference is
the non-null filename set in memory by the failed completed-save — so the
artifact reference is not non-null only in completed status. The last
conjunct shows an actual tick reaching that store: one pending job, every
store operation succeeding except the completed-save. -/
theorem failed_record_with_artifact :
    JobReach carriedFailedJob ∧
    carriedFailedJob.status = .failed ∧
    carriedFailedJob.filePath = some "pdf_job-a.pdf" ∧
    carriedFailedJob.filePath ≠ none ∧
    (processNextJob false [newJob "job-a" "alpha, beta" 0] carryEnv).2.1
      = [carriedFailedJob] :=
  ⟨JobReach.toFailedAfterCompMark "pdf_job-a.pdf" "disk full"
      (JobReach.toProcessing (JobReach.created "job-a" "alpha, beta" 0) rfl) rfl,
    by decide, by decide, by decide, by decide⟩

/-- Witness for C7 at a concrete reachable record (a freshly created job):
the reachability hypothesis is discharged by the creation step. -/
theorem job_record_field_invariant_witness :
    JobReach (newJob "job-a" "alpha" 0) ∧
    (((newJob "job-a" "alpha" 0).filePath ≠ none →
        (newJob "job-a" "alpha" 0).status = .completed ∨
          ((newJob "job-a" "alpha" 0).status = .failed ∧
            (newJob "job-a" "alpha" 0).errorMessage ≠ none)) ∧
      ((newJob "job-a" "alpha" 0).errorMessage ≠ none →
        (newJob "job-a" "alpha" 0).status = .failed) ∧
      (((newJob "job-a" "alpha" 0).status = .pending ∨
          (newJob "job-a" "alpha" 0).status = .processing) →
        (newJob "job-a" "alpha" 0).filePath = none ∧
          (newJob "job-a" "alpha" 0).errorMessage = none) ∧
      (∀ m, (newJob "job-a" "alpha" 0).status = .processing →
        (updateStatus (newJob "job-a" "alpha" 0) .failed none
            (some (renderErrMsg m))).status = .failed ∧
        (updateStatus (newJob "job-a" "alpha" 0) .failed none
            (some (renderErrMsg m))).errorMessage = some (renderErrMsg m) ∧
        (updateStatus (newJob "job-a" "alpha" 0) .failed none
            (some (renderErrMsg m))).filePath = none)) :=
  ⟨JobReach.created "job-a" "alpha" 0,
    job_record_field_invariant _ (JobReach.created "job-a" "alpha" 0)⟩

/-! Lemmas for the FIFO claim. -/

theorem foldl_pickOlder_mem : ∀ (js : List Job) (j : Job),
    js.foldl pickOlder j ∈ j :: js := by
  intro js
  induction js with
  | nil => intro j; simp
  | cons b t ih =>
    intro j
    simp only [List.foldl_cons]
    by_cases hc : b.createdAt < j.createdAt
    · rcases List.mem_cons.mp (ih (pickOlder j b)) with h | h
      · rw [h, pickOlder, if_pos hc]
        simp
      · simp [h]
    · rcases List.mem_cons.mp (ih (pickOlder j b)) with h | h
      · rw [h, pickOlder, if_neg hc]
        simp
      · simp [h]

theorem foldl_pickOlder_le : ∀ (js : List Job) (j : Job), ∀ x ∈ j :: js,
    (js.foldl pickOlder j).createdAt ≤ x.createdAt := by
  intro js
  induction js with
  | nil =>
    intro j x hx
    simp at hx
    subst hx
    exact le_refl _
  | cons b t ih =>
    intro j x hx
    simp only [List.foldl_cons]
    have hseed : (pickOlder j b).createdAt ≤ j.createdAt ∧
        (pickOlder j b).createdAt ≤ b.createdAt := by
      rw [pickOlder]
      split <;> omega
    rcases List.mem_cons.mp hx with rfl | hx'
    · exact le_trans (ih _ _ (List.mem_cons_self _ _)) hseed.1
    rcases List.mem_cons.mp hx' with rfl | hx''
    · exact le_trans (ih _ _ (List.mem_cons_self _ _)) hseed.2
    · exact ih _ x (List.mem_cons_of_mem _ hx'')

theorem oldestPending_spec {store : Store} {j : Job} (h : oldestPending store = some j) :
    j ∈ store ∧ j.status = .pending ∧
      ∀ j' ∈ store, j'.status = .pending → j.createdAt ≤ j'.createdAt := by
  rw [oldestPending] at h
  cases hf : store.filter (fun j => j.status == .pending) with
  | nil => rw [hf] at h; cases h
  | cons a t =>
    rw [hf] at h
    injection h with h
    subst h
    have hmf : (t.foldl pickOlder a) ∈ store.filter (fun j => j.status == .pending) := by
      rw [hf]
      exact foldl_pickOlder_mem t a
    obtain ⟨hmem, hpend⟩ := List.mem_filter.mp hmf
    refine ⟨hmem, by simpa using hpend, ?_⟩
    intro j' hj' hp
    have hj'f : j' ∈ a :: t := by
      rw [← hf]
      exact List.mem_filter.mpr ⟨hj', by simp [hp]⟩
    exact foldl_pickOlder_le t a j' hj'f

theorem mem_saveDoc {x : Job} {store : Store} {doc : Job} (h : x ∈ saveDoc store doc) :
    ∃ x₀ ∈ store, x = if x₀.jobId = doc.jobId then doc else x₀ := by
  obtain ⟨x₀, hx₀, hEq⟩ := List.mem_map.mp h
  exact ⟨x₀, hx₀, hEq.symm⟩

theorem terminal_saveDoc_status (store : Store) (j dT : Job)
    (hid : dT.jobId = j.jobId) (hst1 : dT.status ≠ .pending) (hst2 : dT.status ≠ .processing) :
    (∀ x ∈ saveDoc (saveDoc store (updateStatus j .processing none none)) dT,
        x.status = .pending → x ∈ store ∧ x.status = .pending) ∧
    ((∀ y ∈ store, y.status ≠ .processing) →
      ∀ x ∈ saveDoc (saveDoc store (updateStatus j .processing none none)) dT,
        x.status ≠ .processing) := by
  constructor
  · intro x hx hp
    obtain ⟨x₁, hx₁, hEq⟩ := mem_saveDoc hx
    by_cases hb : x₁.jobId = dT.jobId
    · rw [if_pos hb] at hEq
      rw [hEq] at hp
      exact absurd hp hst1
    · rw [if_neg hb] at hEq
      subst hEq
      obtain ⟨x₀, hx₀, hEq0⟩ := mem_saveDoc hx₁
      by_cases hb0 : x₀.jobId = (updateStatus j .processing none none).jobId
      · rw [if_pos hb0] at hEq0
        rw [hEq0, updateStatus_status] at hp
        simp at hp
      · rw [if_neg hb0] at hEq0
        subst hEq0
        exact ⟨hx₀, hp⟩
  · intro hstore x hx hp
    obtain ⟨x₁, hx₁, hEq⟩ := mem_saveDoc hx
    by_cases hb : x₁.jobId = dT.jobId
    · rw [if_pos hb] at hEq
      rw [hEq] at hp
      exact hst2 hp
    · rw [if_neg hb] at hEq
      subst hEq
      obtain ⟨x₀, hx₀, hEq0⟩ := mem_saveDoc hx₁
      by_cases hb0 : x₀.jobId = (updateStatus j .processing none none).jobId
      · exfalso
        apply hb
        rw [hEq0, if_pos hb0, updateStatus_jobId, hid]
      · rw [if_neg hb0] at hEq0
        subst hEq0
        exact hstore _ hx₀ hp

theorem tick_normal_none (store : Store) (env : TickEnv) (hok : StoreOk env)
    (hnp : oldestPending store = none) :
    processNextJob false store env = (false, store, [.query], .ok ()) := by
  obtain ⟨h1, h2, h3, h4⟩ := hok
  simp [processNextJob, tickBody, h1, hnp]

theorem tick_normal_some (store : Store) (env : TickEnv) (j : Job) (hok : StoreOk env)
    (hp : oldestPending store = some j) :
    ∃ st fp em, (st = JobStatus.completed ∨ st = JobStatus.failed) ∧
      processNextJob false store env =
        (false,
          saveDoc (saveDoc store (updateStatus j .processing none none))
            (updateStatus (updateStatus j .processing none none) st fp em),
          [.query, .mark j .processing, .mark j st], .ok ()) := by
  obtain ⟨h1, h2, h3, h4⟩ := hok
  rcases henv : env.renderRes with m | fn
  · exact ⟨.failed, none, some (renderErrMsg m), Or.inr rfl,
      by simp [processNextJob, tickBody, h1, h2, h3, h4, hp, henv]⟩
  · exact ⟨.completed, some fn, none, Or.inl rfl,
      by simp [processNextJob, tickBody, h1, h2, h3, h4, hp, henv]⟩

theorem startedTimes_append (a b : List TickOp) :
    startedTimes (a ++ b) = startedTimes a ++ startedTimes b := by
  simp [startedTimes]

theorem startedTimes_tick (j : Job) (st : JobStatus)
    (h : st = JobStatus.completed ∨ st = JobStatus.failed) :
    startedTimes [.query, .mark j .processing, .mark j st] = [j.createdAt] := by
  rcases h with rfl | rfl <;> rfl

theorem runTicks_fifo_aux : ∀ (envs : List TickEnv) (store : Store) (acc : List Nat),
    (∀ e ∈ envs, StoreOk e) →
    (∀ j ∈ store, j.status ≠ .processing) →
    (∀ t ∈ acc, ∀ j ∈ store, j.status = .pending → t ≤ j.createdAt) →
    List.Sorted (· ≤ ·) acc →
    List.Sorted (· ≤ ·) (acc ++ startedTimes (runTicks envs false store).2.2) ∧
    (∀ j ∈ (runTicks envs false store).2.1, j.status ≠ .processing) := by
  intro envs
  induction envs with
  | nil =>
    intro store acc hok hnp hacc hsort
    constructor
    · simpa [runTicks, startedTimes] using hsort
    · simpa [runTicks] using hnp
  | cons env rest ih =>
    intro store acc hok hnp hacc hsort
    have hoke : StoreOk env := hok env (by simp)
    have hokr : ∀ e ∈ rest, StoreOk e := fun e he => hok e (by simp [he])
    cases hp : oldestPending store with
    | none =>
      have htick := tick_normal_none store env hoke hp
      have h := ih store acc hokr hnp hacc hsort
      constructor
      · simpa [runTicks, htick, startedTimes_append, startedTimes] using h.1
      · simpa [runTicks, htick] using h.2
    | some j =>
      obtain ⟨st, fp, em, hst, htick⟩ := tick_normal_some store env j hoke hp
      obtain ⟨hjmem, hjpend, hjmin⟩ := oldestPending_spec hp
      have hst1 : (updateStatus (updateStatus j .processing none none) st fp em).status
          ≠ .pending := by
        rw [updateStatus_status]
        rcases hst with rfl | rfl <;> simp
      have hst2 : (updateStatus (updateStatus j .processing none none) st fp em).status
          ≠ .processing := by
        rw [updateStatus_status]
        rcases hst with rfl | rfl <;> simp
      obtain ⟨hsub, hterm⟩ := terminal_saveDoc_status store j
        (updateStatus (updateStatus j .processing none none) st fp em)
        (by rw [updateStatus_jobId, updateStatus_jobId]) hst1 hst2
      have hnp' : ∀ x ∈ saveDoc (saveDoc store (updateStatus j .processing none none))
          (updateStatus (updateStatus j .processing none none) st fp em),
          x.status ≠ .processing := hterm hnp
      have hacc' : ∀ t ∈ acc ++ [j.createdAt],
          ∀ x ∈ saveDoc (saveDoc store (updateStatus j .processing none none))
            (updateStatus (updateStatus j .processing none none) st fp em),
            x.status = .pending → t ≤ x.createdAt := by
        intro t ht x hx hp'
        obtain ⟨hxmem, hxpend⟩ := hsub x hx hp'
        rcases List.mem_append.mp ht with hta | htb
        · exact hacc t hta x hxmem hxpend
        · simp at htb
          subst htb
          exact hjmin x hxmem hxpend
      have hsort' : List.Sorted (· ≤ ·) (acc ++ [j.createdAt]) := by
        refine List.pairwise_append.mpr ⟨hsort, by simp, ?_⟩
        intro a ha b hb
        simp at hb
        subst hb
        exact hacc a ha j hjmem hjpend
      have h := ih (saveDoc (saveDoc store (updateStatus j .processing none none))
        (updateStatus (updateStatus j .processing none none) st fp em))
        (acc ++ [j.createdAt]) hokr hnp' hacc' hsort'
      constructor
      · have h1 := h.1
        rw [List.append_assoc] at h1
        rcases hst with rfl | rfl <;> simpa [runTicks, htick, startedTimes] using h1
      · simpa [runTicks, htick] using h.2

/-- CLAIM C3 (confirmed). For every store of pending jobs and every run of
ticks whose JobStore operations succeed, the scheduler starts jobs (marks
them processing) in non-decreasing createdAt order; between ticks no record
is left in processing status; and a tick that begins while a render is in
flight (the in-flight flag is set) performs no JobStore query and no
transition at all. -/
theorem scheduler_fifo_single_flight (envs : List TickEnv) (store : Store)
    (hok : ∀ e ∈ envs, StoreOk e)
    (hpend : ∀ j ∈ store, j.status = .pending)
    (htimes : (store.map Job.createdAt).Nodup) :
    List.Sorted (· ≤ ·) (startedTimes (runTicks envs false store).2.2) ∧
    (∀ j ∈ (runTicks envs false store).2.1, j.status ≠ .processing) ∧
    (∀ (b : Store) (e : TickEnv),
      processNextJob true b e = (true, b, [], Except.ok ())) := by
  have h := runTicks_fifo_aux envs store [] hok
    (fun j hj => by simp [hpend j hj]) (by simp) List.sorted_nil
  exact ⟨by simpa using h.1, h.2, fun b e => rfl⟩

/-- Witness for C3 at the concrete two-job store (createdAt 5 and 3) and
three normal tick environments: the hypotheses hold by computation and the
conclusion follows from the theorem. -/
theorem scheduler_fifo_witness :
    (∀ e ∈ sampleEnvs, StoreOk e) ∧
    (∀ j ∈ sampleStore, j.status = .pending) ∧
    (sampleStore.map Job.createdAt).Nodup ∧
    (List.Sorted (· ≤ ·) (startedTimes (runTicks sampleEnvs false sampleStore).2.2) ∧
      (∀ j ∈ (runTicks sampleEnvs false sampleStore).2.1, j.status ≠ .processing) ∧
      (∀ (b : Store) (e : TickEnv),
        processNextJob true b e = (true, b, [], Except.ok ()))) :=
  ⟨by decide, by decide, by decide,
    scheduler_fifo_single_flight sampleEnvs sampleStore (by decide) (by decide) (by decide)⟩

end Sched
